import Mathlib

/-!
Verification of the retrieval-augmented chat engine of `app/chat.py` and the
re-indexing endpoints of `app/main.py` (company-qa-bot).

Shallow embedding conventions:
* Python floats are modelled as rationals (`ℚ`); `round(x, n)` is modelled by
  `pyRound` using round-half-even, matching Python's `round`.
* The external services (OpenAI embeddings, Pinecone index, chat completions)
  are modelled by passing their responses in explicitly: the Pinecone response
  is a list of raw matches, the streamed completion is a list of optional text
  deltas.  An explicit `ExtCall` trace records which external calls a code path
  performs.
* `OrderedDict` is modelled as an association list, front = oldest inserted
  (the end `popitem(last=False)` pops), back = most recently used.
* The md5 hexdigest used for cache keys is treated as injective and modelled by
  the normalized text itself (`strip().lower()`).
-/

/-- Round-half-even on rationals, the tie-breaking rule of Python `round`. -/
def roundHalfEven (q : ℚ) : ℤ :=
  if q - (⌊q⌋ : ℚ) < 1/2 then ⌊q⌋
  else if (1 : ℚ)/2 < q - (⌊q⌋ : ℚ) then ⌊q⌋ + 1
  else if ⌊q⌋ % 2 = 0 then ⌊q⌋ else ⌊q⌋ + 1

/-- Python `round(q, ndigits)` on rationals. -/
def pyRound (q : ℚ) (ndigits : ℕ) : ℚ :=
  (roundHalfEven (q * (10 : ℚ) ^ ndigits) : ℚ) / (10 : ℚ) ^ ndigits

theorem floor_le_roundHalfEven (q : ℚ) : ⌊q⌋ ≤ roundHalfEven q := by
  unfold roundHalfEven
  split_ifs <;> omega

theorem roundHalfEven_le_floor_add_one (q : ℚ) : roundHalfEven q ≤ ⌊q⌋ + 1 := by
  unfold roundHalfEven
  split_ifs <;> omega

theorem roundHalfEven_intCast (n : ℤ) : roundHalfEven (n : ℚ) = n := by
  unfold roundHalfEven
  simp

theorem roundHalfEven_mono {a b : ℚ} (h : a ≤ b) :
    roundHalfEven a ≤ roundHalfEven b := by
  rcases lt_or_eq_of_le (Int.floor_le_floor h) with hf | hf
  · calc roundHalfEven a ≤ ⌊a⌋ + 1 := roundHalfEven_le_floor_add_one a
      _ ≤ ⌊b⌋ := by omega
      _ ≤ roundHalfEven b := floor_le_roundHalfEven b
  · unfold roundHalfEven
    rw [← hf]
    split_ifs <;> first | omega | linarith

theorem le_roundHalfEven_of_intCast_le {n : ℤ} {q : ℚ} (h : (n : ℚ) ≤ q) :
    n ≤ roundHalfEven q :=
  le_trans (Int.le_floor.mpr h) (floor_le_roundHalfEven q)

/-- If `q` is an exact multiple of `10 ^ ndigits`, rounding does not change it. -/
theorem pyRound_eq_self {q : ℚ} {ndigits : ℕ} (n : ℤ)
    (h : q * (10 : ℚ) ^ ndigits = (n : ℚ)) : pyRound q ndigits = q := by
  unfold pyRound
  rw [h, roundHalfEven_intCast, ← h]
  field_simp

/-- Truthiness of an optional string in Python (`None` and `""` are falsy). -/
def optTruthy : Option String → Bool
  | some s => !s.isEmpty
  | none => false

/-- The Pinecone metadata of a knowledge-base entry (`app/indexer.py`
`build_metadata`): `question` and `answer` always present, `link`,
`category`, `row_number` optional. -/
structure QAMetadata where
  question : Option String
  answer : Option String
  link : Option String
  category : Option String
  row_number : Option ℕ
deriving DecidableEq, Repr

/-- A raw match of the Pinecone index response: a similarity score and
metadata. -/
structure RawMatch where
  score : ℚ
  metadata : QAMetadata
deriving DecidableEq, Repr

/-- A retained match as built by `retrieve_context`: the score rounded to 4
decimal places plus the metadata. -/
structure ScoredMatch where
  score : ℚ
  metadata : QAMetadata
deriving DecidableEq, Repr

/-- Constant `TOP_K = 3` of `app/chat.py`. -/
def TOP_K : ℕ := 3

/-- Constant `SIMILARITY_THRESHOLD = 0.4` of `app/chat.py`. -/
def SIMILARITY_THRESHOLD : ℚ := 2/5

/-- Constant `CHAT_MODEL` of `app/config.py`. -/
def CHAT_MODEL : String := "gpt-4o-mini"

/-- Function `retrieve_context` of `app/chat.py`, parameterized by the index response
(the loop keeps a candidate iff `score >= SIMILARITY_THRESHOLD`, storing the
score rounded to 4 digits). -/
def retrieve_context (resp : List RawMatch) : List ScoredMatch :=
  (resp.filter (fun m => SIMILARITY_THRESHOLD ≤ m.score)).map
    (fun m => { score := pyRound m.score 4, metadata := m.metadata })

/-- Function `_calc_confidence` of `app/chat.py`: 0.0 on no matches, otherwise
`round((avg + matches[0].score) / 2, 4)` — note `matches[0]`, the first
element. -/
def _calc_confidence (ms : List ScoredMatch) : ℚ :=
  match ms with
  | [] => 0
  | m :: _ =>
    let avg := ((ms.map ScoredMatch.score).sum) / (ms.length : ℚ)
    pyRound ((avg + m.score) / 2) 4

/-- Modelled from the spec (§4.4 ConfidenceScorer), for comparison with
`_calc_confidence`: `(average of all match scores + score of the single best
match) / 2, rounded to 4 decimal places`, 0.0 on no matches. -/
def calcConfidenceSpec (ms : List ScoredMatch) : ℚ :=
  match ms with
  | [] => 0
  | m :: _ =>
    let scores := ms.map ScoredMatch.score
    let avg := scores.sum / (scores.length : ℚ)
    let best := scores.foldl max m.score
    pyRound ((avg + best) / 2) 4

/-- A source reference as built by `_build_sources` of `app/chat.py`;
`category` and `link` keys are set only when truthy in the metadata. -/
structure SourceRef where
  row_number : Option ℕ
  question : Option String
  relevance_score : ℚ
  category : Option String
  link : Option String
deriving DecidableEq, Repr

/-- Function `_build_sources` of `app/chat.py`. -/
def _build_sources (ms : List ScoredMatch) : List SourceRef :=
  ms.map fun m =>
    { row_number := m.metadata.row_number
      question := m.metadata.question
      relevance_score := m.score
      category := if optTruthy m.metadata.category then m.metadata.category else none
      link := if optTruthy m.metadata.link then m.metadata.link else none }

/-- Joins a list of strings with a separator, modelling Python `sep.join`. -/
def joinSep (sep : String) : List String → String
  | [] => ""
  | [b] => b
  | b :: rest => b ++ sep ++ joinSep sep (rest)

/-- Concatenation of a list of strings. -/
def concatAll : List String → String
  | [] => ""
  | s :: rest => s ++ concatAll rest

/-- Fuelled decimal expansion of the fractional part `q` (with `0 ≤ q < 1`). -/
def fracDigits (fuel : ℕ) (q : ℚ) : String :=
  match fuel with
  | 0 => ""
  | fuel' + 1 =>
    if q = 0 then ""
    else
      toString ⌊q * 10⌋ ++ fracDigits fuel' (q * 10 - (⌊q * 10⌋ : ℚ))

/-- Decimal rendering of a nonnegative rational, modelling Python `str` /
`repr` on the floats this program prints (all rounded to ≤ 4 decimals). -/
def floatReprNonneg (q : ℚ) : String :=
  let fs := fracDigits 17 (q - (⌊q⌋ : ℚ))
  toString ⌊q⌋ ++ "." ++ (if fs.isEmpty then "0" else fs)

/-- Decimal rendering of a rational, modelling Python `str` on a float. -/
def floatRepr (q : ℚ) : String :=
  if q < 0 then "-" ++ floatReprNonneg (-q) else floatReprNonneg q

/-- One hexadecimal digit. -/
def hexDigit (n : ℕ) : Char :=
  ("0123456789abcdef".data.getD n '0')

/-- JSON string escaping of one character, as `json.dumps` with
`ensure_ascii=False` performs it. -/
def jsonEscapeChar (c : Char) : String :=
  if c = '"' then "\\\""
  else if c = '\\' then "\\\\"
  else if c = '\n' then "\\n"
  else if c = '\t' then "\\t"
  else if c = '\r' then "\\r"
  else if c.toNat = 8 then "\\b"
  else if c.toNat = 12 then "\\f"
  else if c.toNat < 32 then
    "\\u00" ++ String.singleton (hexDigit (c.toNat / 16))
      ++ String.singleton (hexDigit (c.toNat % 16))
  else String.singleton c

/-- A JSON string literal for `s`. -/
def jsonStr (s : String) : String :=
  "\"" ++ concatAll (s.data.map jsonEscapeChar) ++ "\""

/-- The fixed sentinel `build_context_block` returns for an empty match list
(`app/chat.py` line 121). -/
def sentinelNoReference : String := "（找不到相關的參考資料）"

/-- One numbered reference of the context block (`app/chat.py`
`build_context_block` loop body): score, question, answer, then link and
category only when truthy. -/
def renderReference (i : ℕ) (m : ScoredMatch) : String :=
  let meta := m.metadata
  let base := "【參考資料 " ++ toString i ++ "】（相關度：" ++ floatRepr m.score ++ "）\n"
    ++ "問題：" ++ meta.question.getD "" ++ "\n"
    ++ "答案：" ++ meta.answer.getD ""
  let base := if optTruthy meta.link then base ++ "\n連結：" ++ meta.link.getD "" else base
  if optTruthy meta.category then base ++ "\n分類：" ++ meta.category.getD "" else base

/-- The enumerated loop of `build_context_block`, numbering from `i`. -/
def buildBlocks (i : ℕ) : List ScoredMatch → List String
  | [] => []
  | m :: rest => renderReference i m :: buildBlocks (i + 1) rest

/-- Function `build_context_block` of `app/chat.py`. -/
def build_context_block (ms : List ScoredMatch) : String :=
  if ms.isEmpty then sentinelNoReference
  else joinSep "\n\n" (buildBlocks 1 ms)

/-- A typed wire event of the streaming protocol. -/
inductive Event where
  | metadata (sources : List SourceRef) (confidence : ℚ)
  | chunk (content : String)
  | done (answer : String) (latency_seconds : ℚ)
deriving DecidableEq, Repr

/-- JSON encoding of one source dict, key order as `_build_sources` inserts
them, `json.dumps` default separators. -/
def encodeSource (s : SourceRef) : String :=
  "\x7b\"row_number\": " ++ (match s.row_number with | some n => toString n | none => "null")
    ++ ", \"question\": " ++ (match s.question with | some q => jsonStr q | none => "null")
    ++ ", \"relevance_score\": " ++ floatRepr s.relevance_score
    ++ (match s.category with | some c => ", \"category\": " ++ jsonStr c | none => "")
    ++ (match s.link with | some l => ", \"link\": " ++ jsonStr l | none => "")
    ++ "\x7d"

/-- JSON encoding of one wire event, mirroring the `json.dumps(...)` calls in
`chat_stream` (dict key insertion order, `ensure_ascii=False`). -/
def encodeEvent : Event → String
  | .metadata sources confidence =>
    "\x7b\"type\": \"metadata\", \"sources\": ["
      ++ joinSep ", " (sources.map encodeSource)
      ++ "], \"confidence\": " ++ floatRepr confidence ++ "\x7d"
  | .chunk content =>
    "\x7b\"type\": \"chunk\", \"content\": " ++ jsonStr content ++ "\x7d"
  | .done answer latency =>
    "\x7b\"type\": \"done\", \"answer\": " ++ jsonStr answer
      ++ ", \"latency_seconds\": " ++ floatRepr latency ++ "\x7d"

/-- One SSE line as `chat_stream` yields it: `data: ` prefix, one JSON
object, blank-line terminator. -/
def sseLine (e : Event) : String :=
  "data: " ++ encodeEvent e ++ "\n\n"

/-- The cached payload: the result dict stored by `chat` / `chat_stream`
(`cached` key absent modelled as `false`). -/
structure ChatResult where
  answer : String
  sources : List SourceRef
  confidence : ℚ
  latency_seconds : ℚ
  model : String
  matches_found : ℕ
  cached : Bool
deriving DecidableEq, Repr

/-- One value of the `OrderedDict`: `{"result": ..., "timestamp": ...}`. -/
structure CacheEntry where
  result : ChatResult
  timestamp : ℚ
deriving DecidableEq, Repr

/-- The association-list entries of the cache, front = oldest. -/
abbrev Entries := List (String × CacheEntry)

/-- A whitespace character as Python `str.strip` removes it. -/
def isSpaceChar (c : Char) : Bool :=
  c = ' ' || c = '\t' || c = '\n' || c = '\r' || c.toNat = 11 || c.toNat = 12

/-- ASCII lower-casing of one character, as Python `str.lower` acts on the
ASCII range. -/
def lowerChar (c : Char) : Char :=
  if 65 ≤ c.toNat ∧ c.toNat ≤ 90 then Char.ofNat (c.toNat + 32) else c

/-- Python `str.strip()` on a character list. -/
def stripChars (l : List Char) : List Char :=
  ((l.dropWhile isSpaceChar).reverse.dropWhile isSpaceChar).reverse

/-- Key derivation `QueryCache._key`: md5 hexdigest of `query.strip().lower()`, with md5
modelled as injective (the normalized text itself stands for its digest). -/
def cacheKey (query : String) : String :=
  ⟨(stripChars query.data).map lowerChar⟩

/-- First value stored under `key`, modelling `self._cache[key]` lookup. -/
def lookupEntry (key : String) : Entries → Option CacheEntry
  | [] => none
  | kv :: rest => if kv.1 = key then some kv.2 else lookupEntry key rest

/-- Membership test for a key, modelling `key in self._cache`. -/
def hasKey (key : String) : Entries → Bool
  | [] => false
  | kv :: rest => kv.1 = key || hasKey key rest

/-- Removal of a key, modelling `del self._cache[key]` (keys are unique in a
dict, so removing every occurrence is faithful). -/
def removeKey (key : String) : Entries → Entries
  | [] => []
  | kv :: rest => if kv.1 = key then removeKey key rest else kv :: removeKey key rest

/-- Assignment `self._cache[key] = value`: overwrite in place when present (an
`OrderedDict` assignment does not move an existing key), else append at the
most-recently-used end. -/
def setKey (key : String) (e : CacheEntry) (es : Entries) : Entries :=
  if hasKey key es then es.map (fun kv => if kv.1 = key then (key, e) else kv)
  else es ++ [(key, e)]

/-- The `QueryCache` state of `app/chat.py`. -/
structure QueryCacheState where
  max_size : ℕ
  ttl : ℚ
  entries : Entries
deriving DecidableEq, Repr

/-- Method `QueryCache.get`: on an unexpired hit, move the entry to the
most-recently-used end and return the stored result; on an expired hit,
delete the entry; `time.time()` is passed in as `now`. -/
def QueryCacheState.get (c : QueryCacheState) (query : String) (now : ℚ) :
    Option ChatResult × QueryCacheState :=
  let key := cacheKey query
  match lookupEntry key c.entries with
  | some entry =>
    if now - entry.timestamp < c.ttl then
      (some entry.result, { c with entries := removeKey key c.entries ++ [(key, entry)] })
    else
      (none, { c with entries := removeKey key c.entries })
  | none => (none, c)

/-- Method `QueryCache.put`: evict the least-recently-used (front) entry when at
capacity, then assign the key. -/
def QueryCacheState.put (c : QueryCacheState) (query : String)
    (result : ChatResult) (now : ℚ) : QueryCacheState :=
  let key := cacheKey query
  let es := if c.max_size ≤ c.entries.length then c.entries.drop 1 else c.entries
  { c with entries := setKey key { result := result, timestamp := now } es }

/-- Method `QueryCache.clear`. -/
def QueryCacheState.clear (c : QueryCacheState) : QueryCacheState :=
  { c with entries := [] }

/-- The external API calls the engine can perform. -/
inductive ExtCall where
  | embed (query : String)
  | indexQuery
  | completionBlocking
  | completionStream
deriving DecidableEq, Repr

/-- A conversation turn (`{"role": ..., "content": ...}` dicts passed
through opaquely). -/
structure Turn where
  role : String
  content : String
deriving DecidableEq, Repr

/-- Environment of one blocking `chat` call: the Pinecone response, the
completion answer, and the successive values of `time.time()` in call order
(`t0` at start, `t1` inside `cache.get`, `t2` for elapsed time, `t3` inside
`cache.put`). -/
structure ChatEnv where
  indexResponse : List RawMatch
  completionAnswer : String
  t0 : ℚ
  t1 : ℚ
  t2 : ℚ
  t3 : ℚ
deriving DecidableEq, Repr

/-- In-place mutation of the stored result dict reached through the alias
`cache.get` returned: the entry keeps its timestamp, its `result` dict now
holds the updated fields. -/
def mutateResult (key : String) (r : ChatResult) : Entries → Entries :=
  List.map (fun kv => if kv.1 = key then (key, { kv.2 with result := r }) else kv)

/-- The in-place update the hit path of `chat` performs on the dict returned
by `cache.get`: set `latency_seconds` and `cached = True`. -/
def hitUpdate (r : ChatResult) (lat : ℚ) : ChatResult :=
  { r with latency_seconds := lat, cached := true }

/-- Function `chat` of `app/chat.py` (blocking mode).  On a hit with no history the
code mutates the dict returned by `cache.get` — the very object stored in
the cache — setting `latency_seconds` and `cached`, and returns it; the
model therefore both returns the updated result and writes it back into the
cache entry.  Returns (result, final cache state, external-call trace). -/
def chat (query : String) (history : List Turn) (c : QueryCacheState)
    (env : ChatEnv) : ChatResult × QueryCacheState × List ExtCall :=
  let got := c.get query env.t1
  let c1 := got.2
  match got.1 with
  | some r =>
    if history.isEmpty then
      let r' := hitUpdate r (pyRound (env.t2 - env.t0) 3)
      (r', { c1 with entries := mutateResult (cacheKey query) r' c1.entries }, [])
    else
      chatMiss query history c1 env
  | none => chatMiss query history c1 env
where
  /-- The cache-miss path of `chat`: retrieve, build, generate, cache. -/
  chatMiss (query : String) (history : List Turn) (c1 : QueryCacheState)
      (env : ChatEnv) : ChatResult × QueryCacheState × List ExtCall :=
    let ms := retrieve_context env.indexResponse
    let result : ChatResult :=
      { answer := env.completionAnswer
        sources := _build_sources ms
        confidence := _calc_confidence ms
        latency_seconds := pyRound (env.t2 - env.t0) 3
        model := CHAT_MODEL
        matches_found := ms.length
        cached := false }
    let c2 := if history.isEmpty then c1.put query result env.t3 else c1
    (result, c2, [ExtCall.embed query, ExtCall.indexQuery, ExtCall.completionBlocking])

/-- Environment of one `chat_stream` call: the Pinecone response, the list of
completion stream deltas (`None` or text), and the successive `time.time()`
values (`t0` at start, `t1` for elapsed time, `t2` inside `cache.put`). -/
structure StreamEnv where
  indexResponse : List RawMatch
  deltas : List (Option String)
  t0 : ℚ
  t1 : ℚ
  t2 : ℚ
deriving DecidableEq, Repr

/-- The streaming loop of `chat_stream`: skip falsy deltas, accumulate the
rest into `full_answer`, yield one `chunk` line each.  Returns the yielded
lines and the final accumulated answer. -/
def streamLoop (deltas : List (Option String)) (acc : String) : List String × String :=
  match deltas with
  | [] => ([], acc)
  | none :: rest => streamLoop rest acc
  | some text :: rest =>
    if text.isEmpty then streamLoop rest acc
    else
      let r := streamLoop rest (acc ++ text)
      (sseLine (Event.chunk text) :: r.1, r.2)

/-- Function `chat_stream` of `app/chat.py`.  Note: it never reads the cache; it only
writes it at the end when no history was supplied.  Returns (yielded SSE
lines, final cache state, external-call trace). -/
def chat_stream (query : String) (history : List Turn) (c : QueryCacheState)
    (env : StreamEnv) : List String × QueryCacheState × List ExtCall :=
  let ms := retrieve_context env.indexResponse
  let confidence := _calc_confidence ms
  let sources := _build_sources ms
  let looped := streamLoop env.deltas ""
  let full_answer := looped.2
  let elapsed := pyRound (env.t1 - env.t0) 3
  let c' :=
    if history.isEmpty then
      c.put query
        { answer := full_answer, sources := sources, confidence := confidence
          latency_seconds := elapsed, model := CHAT_MODEL
          matches_found := ms.length, cached := false } env.t2
    else c
  (sseLine (Event.metadata sources confidence) :: looped.1
      ++ [sseLine (Event.done full_answer elapsed)],
    c', [ExtCall.embed query, ExtCall.indexQuery, ExtCall.completionStream])

/-- Function `clear_cache` of `app/chat.py`. -/
def clear_cache (c : QueryCacheState) : QueryCacheState := c.clear

/-- Outcome of an endpoint call, as far as the query cache and re-indexing
are concerned. -/
structure EndpointOutcome where
  authorized : Bool
  reindexScheduled : Bool
  cache : QueryCacheState
deriving DecidableEq, Repr

/-- Endpoint `handle_sheets_webhook` of `app/main.py`: validates the shared secret and
schedules `reindex_company_qa` in the background.  It performs no call to
`clear_cache` (and `reindex_company_qa` in `app/indexer.py` never touches the
query cache either), so the cache state is returned unchanged. -/
def handle_sheets_webhook (payloadSecret configuredSecret : String)
    (c : QueryCacheState) : EndpointOutcome :=
  if payloadSecret ≠ configuredSecret then
    { authorized := false, reindexScheduled := false, cache := c }
  else
    { authorized := true, reindexScheduled := true, cache := c }

/-- Endpoint `manual_reindex` of `app/main.py`: schedules `reindex_company_qa` and
calls `clear_cache()`. -/
def manual_reindex (c : QueryCacheState) : EndpointOutcome :=
  { authorized := true, reindexScheduled := true, cache := clear_cache c }

theorem lookupEntry_cons (key : String) (kv : String × CacheEntry) (rest : Entries) :
    lookupEntry key (kv :: rest)
      = if kv.1 = key then some kv.2 else lookupEntry key rest := rfl

theorem hasKey_cons (key : String) (kv : String × CacheEntry) (rest : Entries) :
    hasKey key (kv :: rest) = (decide (kv.1 = key) || hasKey key rest) := rfl

theorem removeKey_cons (key : String) (kv : String × CacheEntry) (rest : Entries) :
    removeKey key (kv :: rest)
      = if kv.1 = key then removeKey key rest else kv :: removeKey key rest := rfl

theorem lookupEntry_eq_none_of_forall_ne {key : String} {es : Entries}
    (h : ∀ kv ∈ es, kv.1 ≠ key) : lookupEntry key es = none := by
  induction es with
  | nil => rfl
  | cons kv rest ih =>
    rw [lookupEntry_cons, if_neg (h kv (List.mem_cons_self kv rest))]
    exact ih fun kv' hk => h kv' (List.mem_cons_of_mem kv hk)

theorem forall_mem_removeKey_ne (key : String) (es : Entries) :
    ∀ kv ∈ removeKey key es, kv.1 ≠ key := by
  induction es with
  | nil => simp [removeKey]
  | cons hd rest ih =>
    rw [removeKey_cons]
    split_ifs with h
    · exact ih
    · intro kv hkv
      rcases List.mem_cons.mp hkv with h' | h'
      · subst h'; exact h
      · exact ih kv h'

theorem lookupEntry_removeKey_self (key : String) (es : Entries) :
    lookupEntry key (removeKey key es) = none :=
  lookupEntry_eq_none_of_forall_ne (forall_mem_removeKey_ne key es)

theorem lookupEntry_append_of_none {key : String} {xs : Entries} (ys : Entries)
    (h : lookupEntry key xs = none) :
    lookupEntry key (xs ++ ys) = lookupEntry key ys := by
  induction xs with
  | nil => rfl
  | cons kv rest ih =>
    rw [lookupEntry_cons] at h
    by_cases hk : kv.1 = key
    · rw [if_pos hk] at h; exact absurd h (by simp)
    · rw [if_neg hk] at h
      rw [List.cons_append, lookupEntry_cons, if_neg hk]
      exact ih h

theorem mem_removeKey_of_ne {kv : String × CacheEntry} {es : Entries}
    (hmem : kv ∈ es) (key : String) (hne : kv.1 ≠ key) :
    kv ∈ removeKey key es := by
  induction es with
  | nil => simp at hmem
  | cons hd rest ih =>
    rw [removeKey_cons]
    rcases List.mem_cons.mp hmem with h | h
    · subst h
      rw [if_neg hne]
      exact List.mem_cons_self kv _
    · split_ifs
      · exact ih h
      · exact List.mem_cons_of_mem hd (ih h)

theorem hasKey_eq_false_iff (key : String) (es : Entries) :
    hasKey key es = false ↔ ∀ kv ∈ es, kv.1 ≠ key := by
  induction es with
  | nil => simp [hasKey]
  | cons hd rest ih =>
    rw [hasKey_cons]
    simp only [Bool.or_eq_false_iff, decide_eq_false_iff_not, List.forall_mem_cons]
    exact and_congr Iff.rfl ih

theorem hasKey_append (key : String) (xs ys : Entries) :
    hasKey key (xs ++ ys) = (hasKey key xs || hasKey key ys) := by
  induction xs with
  | nil => simp [hasKey]
  | cons hd rest ih =>
    rw [List.cons_append, hasKey_cons, hasKey_cons, ih, Bool.or_assoc]

theorem lookupEntry_setKey_self (key : String) (e : CacheEntry) (es : Entries) :
    lookupEntry key (setKey key e es) = some e := by
  unfold setKey
  split_ifs with h
  · induction es with
    | nil => simp [hasKey] at h
    | cons hd rest ih =>
      by_cases hk : hd.1 = key
      · simp only [List.map_cons, if_pos hk]
        rw [lookupEntry_cons, if_pos rfl]
      · rw [hasKey_cons] at h
        simp only [Bool.or_eq_true, decide_eq_true_eq] at h
        rcases h with h | h
        · exact absurd h hk
        · simp only [List.map_cons, if_neg hk]
          rw [lookupEntry_cons, if_neg hk]
          exact ih h
  · have hnone : lookupEntry key es = none :=
      lookupEntry_eq_none_of_forall_ne
        ((hasKey_eq_false_iff key es).mp (Bool.not_eq_true _ ▸ eq_false_of_ne_true h))
    rw [lookupEntry_append_of_none _ hnone, lookupEntry_cons, if_pos rfl]

theorem length_setKey_of_hasKey {key : String} {es : Entries}
    (e : CacheEntry) (h : hasKey key es = true) :
    (setKey key e es).length = es.length := by
  unfold setKey
  simp [h]

theorem setKey_of_not_hasKey {key : String} {es : Entries}
    (e : CacheEntry) (h : hasKey key es = false) :
    setKey key e es = es ++ [(key, e)] := by
  unfold setKey
  simp [h]

theorem mutateResult_of_forall_ne {key : String} {xs : Entries} (r : ChatResult)
    (h : ∀ kv ∈ xs, kv.1 ≠ key) : mutateResult key r xs = xs := by
  unfold mutateResult
  induction xs with
  | nil => rfl
  | cons hd rest ih =>
    simp only [List.map_cons]
    rw [if_neg (h hd (List.mem_cons_self hd rest)),
      ih fun kv hk => h kv (List.mem_cons_of_mem hd hk)]

/-- Concrete metadata record with no optional fields, for concrete inputs. -/
def emptyMeta : QAMetadata := ⟨none, none, none, none, none⟩

theorem foldl_max_of_le {s : ℚ} (l : List ℚ) (h : ∀ x ∈ l, x ≤ s) :
    l.foldl max s = s := by
  induction l with
  | nil => rfl
  | cons a rest ih =>
    rw [List.foldl_cons, max_eq_left (h a (List.mem_cons_self a rest))]
    exact ih fun x hx => h x (List.mem_cons_of_mem a hx)

/-- C3, counterexample: on the two-match sequence with scores 0.6 and 0.8 in
that order, `_calc_confidence` uses the FIRST match's score (`matches[0]`),
yielding (0.7 + 0.6) / 2 = 0.65, not the claimed (0.7 + 0.8) / 2 = 0.75. -/
theorem calc_confidence_first_not_best :
    _calc_confidence [⟨3/5, emptyMeta⟩, ⟨4/5, emptyMeta⟩] = 13/20
    ∧ ((13 : ℚ)/20) ≠ 3/4 := by
  constructor
  · unfold _calc_confidence
    simp only [List.map_cons, List.map_nil, List.sum_cons, List.sum_nil,
      List.length_cons, List.length_nil]
    norm_num
    exact pyRound_eq_self 6500 (by norm_num)
  · norm_num

/-- C3, amended: confidence is 0.0 on the empty sequence; on any sequence
sorted descending by score (the order retrieval returns) the code's
`matches[0]` is the best match, so the spec formula
`(average + best) / 2 rounded to 4 decimals` holds; a singleton whose score
is representable at 4 decimals yields that score; and the descending
two-match sequence with scores 0.8, 0.6 yields 0.75. -/
theorem calc_confidence_amended (ms : List ScoredMatch)
    (hsort : ms.Sorted (fun a b => b.score ≤ a.score))
    (s : ℚ) (meta : QAMetadata) (hs : pyRound s 4 = s) :
    _calc_confidence [] = 0
    ∧ _calc_confidence ms = calcConfidenceSpec ms
    ∧ _calc_confidence [⟨s, meta⟩] = s
    ∧ _calc_confidence [⟨4/5, meta⟩, ⟨3/5, meta⟩] = 3/4 := by
  refine ⟨rfl, ?_, ?_, ?_⟩
  · cases ms with
    | nil => rfl
    | cons m rest =>
      have hall : ∀ x ∈ rest.map ScoredMatch.score, x ≤ m.score := by
        intro x hx
        rcases List.mem_map.mp hx with ⟨b, hb, rfl⟩
        exact (List.sorted_cons.mp hsort).1 b hb
      have hbest : (((m :: rest).map ScoredMatch.score).foldl max m.score) = m.score := by
        simp only [List.map_cons, List.foldl_cons, max_self]
        exact foldl_max_of_le _ hall
      unfold _calc_confidence calcConfidenceSpec
      simp only []
      rw [hbest]
      simp only [List.length_map]
  · unfold _calc_confidence
    simp only [List.map_cons, List.map_nil, List.sum_cons, List.sum_nil,
      List.length_cons, List.length_nil, Nat.zero_add, Nat.cast_one]
    have harg : ((s + 0) / (1 : ℚ) + s) / 2 = s := by ring
    rw [harg]
    exact hs
  · unfold _calc_confidence
    simp only [List.map_cons, List.map_nil, List.sum_cons, List.sum_nil,
      List.length_cons, List.length_nil]
    norm_num
    exact pyRound_eq_self 7500 (by norm_num)

/-- C3, witness for the amended theorem at concrete inputs. -/
theorem calc_confidence_amended_witness :
    _calc_confidence [] = 0
    ∧ _calc_confidence [⟨(4:ℚ)/5, emptyMeta⟩, ⟨3/5, emptyMeta⟩]
        = calcConfidenceSpec [⟨(4:ℚ)/5, emptyMeta⟩, ⟨3/5, emptyMeta⟩]
    ∧ _calc_confidence [⟨(1:ℚ)/2, emptyMeta⟩] = 1/2
    ∧ _calc_confidence [⟨(4:ℚ)/5, emptyMeta⟩, ⟨3/5, emptyMeta⟩] = 3/4 :=
  calc_confidence_amended [⟨(4:ℚ)/5, emptyMeta⟩, ⟨3/5, emptyMeta⟩]
    (by simp [List.sorted_cons]; norm_num) (1/2) emptyMeta
    (pyRound_eq_self 5000 (by norm_num))

theorem pyRound_mono {a b : ℚ} (h : a ≤ b) (n : ℕ) : pyRound a n ≤ pyRound b n := by
  unfold pyRound
  have hm : roundHalfEven (a * 10 ^ n) ≤ roundHalfEven (b * 10 ^ n) :=
    roundHalfEven_mono (mul_le_mul_of_nonneg_right h (by positivity))
  exact (div_le_div_iff_of_pos_right (by positivity)).mpr (by exact_mod_cast hm)

theorem threshold_le_pyRound {q : ℚ} (h : SIMILARITY_THRESHOLD ≤ q) :
    SIMILARITY_THRESHOLD ≤ pyRound q 4 := by
  unfold SIMILARITY_THRESHOLD at h ⊢
  unfold pyRound
  have h1 : ((4000 : ℤ) : ℚ) ≤ q * 10 ^ 4 := by push_cast; linarith
  have h2 : (4000 : ℤ) ≤ roundHalfEven (q * 10 ^ 4) :=
    le_roundHalfEven_of_intCast_le h1
  calc (2 : ℚ)/5 = ((4000 : ℤ) : ℚ) / 10 ^ 4 := by norm_num
    _ ≤ (roundHalfEven (q * 10 ^ 4) : ℚ) / 10 ^ 4 :=
      (div_le_div_iff_of_pos_right (by positivity)).mpr (by exact_mod_cast h2)

/-- C4: `retrieve_context` keeps at most `TOP_K` matches, none below
`SIMILARITY_THRESHOLD` (the rounded stored scores stay above it), preserves
the index response's descending-score order on the kept candidates (they form
a sublist of the response, transformed score-monotonically), and returns the
empty sequence — not an error — when no candidate passes the threshold. -/
theorem retrieve_context_spec (resp : List RawMatch)
    (hlen : resp.length ≤ TOP_K)
    (hsort : resp.Sorted (fun a b => b.score ≤ a.score)) :
    (retrieve_context resp).length ≤ TOP_K
    ∧ (∀ m ∈ retrieve_context resp, SIMILARITY_THRESHOLD ≤ m.score)
    ∧ (retrieve_context resp).Sorted (fun a b => b.score ≤ a.score)
    ∧ (∃ kept : List RawMatch, List.Sublist kept resp ∧ retrieve_context resp
        = kept.map (fun m => { score := pyRound m.score 4, metadata := m.metadata }))
    ∧ ((∀ m ∈ resp, m.score < SIMILARITY_THRESHOLD) → retrieve_context resp = []) := by
  refine ⟨?_, ?_, ?_,
    ⟨resp.filter (fun m => SIMILARITY_THRESHOLD ≤ m.score), List.filter_sublist _, rfl⟩, ?_⟩
  · calc (retrieve_context resp).length
        = (resp.filter (fun m => SIMILARITY_THRESHOLD ≤ m.score)).length := by
          unfold retrieve_context; rw [List.length_map]
      _ ≤ resp.length := List.length_filter_le _ _
      _ ≤ TOP_K := hlen
  · intro m hm
    unfold retrieve_context at hm
    rcases List.mem_map.mp hm with ⟨m', hm', rfl⟩
    exact threshold_le_pyRound (of_decide_eq_true (List.mem_filter.mp hm').2)
  · unfold retrieve_context
    refine List.Pairwise.map _ (fun a b hab => pyRound_mono hab 4) ?_
    exact List.Pairwise.sublist (List.filter_sublist _) hsort
  · intro hbelow
    unfold retrieve_context
    have : resp.filter (fun m => SIMILARITY_THRESHOLD ≤ m.score) = [] := by
      rw [List.filter_eq_nil_iff]
      intro m hm
      simpa using not_le.mpr (hbelow m hm)
    rw [this, List.map_nil]

/-- C4, witness at a concrete descending three-candidate response with one
candidate below threshold. -/
theorem retrieve_context_spec_witness :
    (retrieve_context [⟨9/10, emptyMeta⟩, ⟨1/2, emptyMeta⟩, ⟨3/10, emptyMeta⟩]).length ≤ TOP_K
    ∧ (∀ m ∈ retrieve_context [⟨9/10, emptyMeta⟩, ⟨1/2, emptyMeta⟩, ⟨3/10, emptyMeta⟩],
        SIMILARITY_THRESHOLD ≤ m.score)
    ∧ (retrieve_context [⟨9/10, emptyMeta⟩, ⟨1/2, emptyMeta⟩, ⟨3/10, emptyMeta⟩]).Sorted
        (fun a b => b.score ≤ a.score)
    ∧ (∃ kept : List RawMatch, List.Sublist kept [⟨9/10, emptyMeta⟩, ⟨1/2, emptyMeta⟩, ⟨3/10, emptyMeta⟩]
        ∧ retrieve_context [⟨9/10, emptyMeta⟩, ⟨1/2, emptyMeta⟩, ⟨3/10, emptyMeta⟩]
          = kept.map (fun m => { score := pyRound m.score 4, metadata := m.metadata }))
    ∧ ((∀ m ∈ [(⟨9/10, emptyMeta⟩ : RawMatch), ⟨1/2, emptyMeta⟩, ⟨3/10, emptyMeta⟩],
        m.score < SIMILARITY_THRESHOLD) →
        retrieve_context [⟨9/10, emptyMeta⟩, ⟨1/2, emptyMeta⟩, ⟨3/10, emptyMeta⟩] = []) :=
  retrieve_context_spec [⟨9/10, emptyMeta⟩, ⟨1/2, emptyMeta⟩, ⟨3/10, emptyMeta⟩]
    (by norm_num [TOP_K])
    (by simp [List.sorted_cons]; norm_num)

/-- Concrete result value for witnesses. -/
def sampleResult : ChatResult :=
  { answer := "ans", sources := [], confidence := 1, latency_seconds := 5,
    model := CHAT_MODEL, matches_found := 1, cached := false }

/-- C6: a `get` whose entry's age is strictly within the TTL returns exactly
the stored result and retains the entry; a `get` at or past the TTL returns
`none` and removes the entry; expiry is lazy — neither `get` nor a `put`
below capacity ever removes an entry under a different key, whatever its
timestamp. -/
theorem cache_get_expiry_spec (c : QueryCacheState) (q : String) (now : ℚ)
    (entry : CacheEntry)
    (hfound : lookupEntry (cacheKey q) c.entries = some entry) :
    (now - entry.timestamp < c.ttl →
      (c.get q now).1 = some entry.result
      ∧ lookupEntry (cacheKey q) (c.get q now).2.entries = some entry)
    ∧ (c.ttl ≤ now - entry.timestamp →
      (c.get q now).1 = none
      ∧ lookupEntry (cacheKey q) (c.get q now).2.entries = none)
    ∧ (∀ kv ∈ c.entries, kv.1 ≠ cacheKey q → kv ∈ (c.get q now).2.entries)
    ∧ (∀ (r : ChatResult) (t : ℚ), c.entries.length < c.max_size →
        ∀ kv ∈ c.entries, kv.1 ≠ cacheKey q → kv ∈ (c.put q r t).entries) := by
  refine ⟨?_, ?_, ?_, ?_⟩
  · intro hfresh
    unfold QueryCacheState.get
    simp only [hfound]
    rw [if_pos hfresh]
    refine ⟨rfl, ?_⟩
    rw [lookupEntry_append_of_none _ (lookupEntry_removeKey_self _ _),
      lookupEntry_cons, if_pos rfl]
  · intro hexp
    unfold QueryCacheState.get
    simp only [hfound]
    rw [if_neg (not_lt.mpr hexp)]
    exact ⟨rfl, lookupEntry_removeKey_self _ _⟩
  · intro kv hmem hne
    unfold QueryCacheState.get
    simp only [hfound]
    split_ifs
    · exact List.mem_append_left _ (mem_removeKey_of_ne hmem _ hne)
    · exact mem_removeKey_of_ne hmem _ hne
  · intro r t hlt kv hmem hne
    unfold QueryCacheState.put
    rw [if_neg (not_le.mpr hlt)]
    unfold setKey
    dsimp only
    split_ifs
    · exact List.mem_map.mpr ⟨kv, hmem, by rw [if_neg hne]⟩
    · exact List.mem_append_left _ hmem

/-- C6, witness: one stored entry, a hit at age 100 < 3600 returns the stored
result, a get at age 5000 ≥ 3600 removes it. -/
theorem cache_get_expiry_spec_witness :
    ((⟨200, 3600, [(cacheKey "Hello ", ⟨sampleResult, 0⟩)]⟩ : QueryCacheState).get
        "hello" 100).1 = some sampleResult
    ∧ ((⟨200, 3600, [(cacheKey "Hello ", ⟨sampleResult, 0⟩)]⟩ : QueryCacheState).get
        "hello" 5000).1 = none :=
  ⟨((cache_get_expiry_spec ⟨200, 3600, [(cacheKey "Hello ", ⟨sampleResult, 0⟩)]⟩
      "hello" 100 ⟨sampleResult, 0⟩ (by simp [lookupEntry]; decide)).1
      (by norm_num)).1,
   ((cache_get_expiry_spec ⟨200, 3600, [(cacheKey "Hello ", ⟨sampleResult, 0⟩)]⟩
      "hello" 5000 ⟨sampleResult, 0⟩ (by simp [lookupEntry]; decide)).2.1
      (by norm_num)).1⟩

theorem put_max_size (c : QueryCacheState) (q : String) (r : ChatResult) (t : ℚ) :
    (c.put q r t).max_size = c.max_size := rfl

theorem hasKey_eq_false_of_sub {key : String} {xs ys : Entries}
    (hsub : ys ⊆ xs) (h : hasKey key xs = false) : hasKey key ys = false := by
  rw [hasKey_eq_false_iff] at h ⊢
  exact fun kv hkv => h kv (hsub hkv)

theorem put_fresh_not_full {c : QueryCacheState} {q : String}
    (r : ChatResult) (t : ℚ)
    (hlt : c.entries.length < c.max_size)
    (hfresh : hasKey (cacheKey q) c.entries = false) :
    (c.put q r t).entries = c.entries ++ [(cacheKey q, ⟨r, t⟩)] := by
  unfold QueryCacheState.put
  dsimp only
  rw [if_neg (not_le.mpr hlt), setKey_of_not_hasKey _ hfresh]

theorem put_at_capacity_fresh {c : QueryCacheState} {q : String}
    (r : ChatResult) (t : ℚ)
    (hfull : c.max_size ≤ c.entries.length)
    (hfresh : hasKey (cacheKey q) c.entries = false) :
    (c.put q r t).entries = c.entries.drop 1 ++ [(cacheKey q, ⟨r, t⟩)] := by
  unfold QueryCacheState.put
  dsimp only
  rw [if_pos hfull,
    setKey_of_not_hasKey _ (hasKey_eq_false_of_sub (List.drop_subset 1 c.entries) hfresh)]

/-- Repeated insertion, modelling a sequence of `cache.put(query, result)`
calls (all with the same result and timestamp, immaterial for eviction
order). -/
def putAll (r : ChatResult) (t : ℚ) (c : QueryCacheState) (qs : List String) :
    QueryCacheState :=
  qs.foldl (fun acc q' => acc.put q' r t) c

theorem putAll_fresh (r : ChatResult) (t : ℚ) (qs : List String) :
    ∀ c : QueryCacheState,
    c.entries.length + qs.length ≤ c.max_size →
    (qs.map cacheKey).Nodup →
    (∀ q' ∈ qs, hasKey (cacheKey q') c.entries = false) →
    (putAll r t c qs).entries
      = c.entries ++ qs.map (fun q' => (cacheKey q', ⟨r, t⟩)) := by
  induction qs with
  | nil => intro c _ _ _; simp [putAll]
  | cons q0 rest ih =>
    intro c hlen hnodup hfresh
    have hlt : c.entries.length < c.max_size := by
      simp only [List.length_cons] at hlen; omega
    have hstep : (c.put q0 r t).entries = c.entries ++ [(cacheKey q0, ⟨r, t⟩)] :=
      put_fresh_not_full r t hlt (hfresh q0 (List.mem_cons_self _ _))
    have hnodup' : (cacheKey q0 :: rest.map cacheKey).Nodup := by
      simpa only [List.map_cons] using hnodup
    have hq0 : (cacheKey q0) ∉ rest.map cacheKey := (List.nodup_cons.mp hnodup').1
    have hrec := ih (c.put q0 r t)
      (by rw [put_max_size, hstep, List.length_append, List.length_singleton]
          simp only [List.length_cons] at hlen; omega)
      ((List.nodup_cons.mp hnodup').2)
      (by
        intro q' hq'
        rw [hstep, hasKey_append]
        have h1 : hasKey (cacheKey q') c.entries = false :=
          hfresh q' (List.mem_cons_of_mem q0 hq')
        have h2 : cacheKey q0 ≠ cacheKey q' := by
          intro heq
          exact hq0 (heq ▸ List.mem_map_of_mem cacheKey hq')
        rw [h1]
        simp [hasKey, h2])
    rw [putAll, List.foldl_cons]
    show (putAll r t (c.put q0 r t) rest).entries = _
    rw [hrec, hstep, List.append_assoc]
    simp

theorem putAll_max_size (r : ChatResult) (t : ℚ) (qs : List String) :
    ∀ c : QueryCacheState, (putAll r t c qs).max_size = c.max_size := by
  induction qs with
  | nil => intro c; rfl
  | cons q0 rest ih =>
    intro c
    rw [putAll, List.foldl_cons]
    show (putAll r t (c.put q0 r t) rest).max_size = _
    rw [ih (c.put q0 r t), put_max_size]

/-- C7: a `put` never grows the cache beyond `max_size`; a `put` of a fresh
key at capacity evicts exactly the front (least-recently-used) entry; an
unexpired hit on `get` moves its entry to the most-recently-used end; and
inserting `max_size + 1` queries with pairwise-distinct keys into the empty
cache retains exactly the keys of all but the first-inserted query — the
least-recently-used entry is the one evicted. -/
theorem cache_capacity_lru_spec (c : QueryCacheState) (q : String)
    (r : ChatResult) (t now : ℚ) (hpos : 0 < c.max_size) :
    (c.entries.length ≤ c.max_size → (c.put q r t).entries.length ≤ c.max_size)
    ∧ (c.entries.length = c.max_size → hasKey (cacheKey q) c.entries = false →
        (c.put q r t).entries = c.entries.drop 1 ++ [(cacheKey q, ⟨r, t⟩)])
    ∧ (∀ entry : CacheEntry, lookupEntry (cacheKey q) c.entries = some entry →
        now - entry.timestamp < c.ttl →
        (c.get q now).2.entries
          = removeKey (cacheKey q) c.entries ++ [(cacheKey q, entry)])
    ∧ (∀ qs : List String, qs.length = c.max_size + 1 →
        (qs.map cacheKey).Nodup →
        ((putAll r t c.clear qs).entries.map Prod.fst) = (qs.map cacheKey).drop 1) := by
  refine ⟨?_, ?_, ?_, ?_⟩
  · intro hle
    unfold QueryCacheState.put
    dsimp only
    by_cases hfull : c.max_size ≤ c.entries.length
    · rw [if_pos hfull]
      unfold setKey
      split_ifs
      · rw [List.length_map, List.length_drop]; omega
      · rw [List.length_append, List.length_drop, List.length_singleton]; omega
    · rw [if_neg hfull]
      unfold setKey
      split_ifs
      · rw [List.length_map]; omega
      · rw [List.length_append, List.length_singleton]; omega
  · intro hlen hfresh
    exact put_at_capacity_fresh r t (le_of_eq hlen.symm) hfresh
  · intro entry hfound hfreshq
    unfold QueryCacheState.get
    simp only [hfound]
    rw [if_pos hfreshq]
  · intro qs hqlen hqnodup
    obtain ⟨qlast, hback⟩ := List.length_eq_one.mp
      (show (qs.drop c.max_size).length = 1 by rw [List.length_drop]; omega)
    have hfb : qs.take c.max_size ++ qs.drop c.max_size = qs := List.take_append_drop _ qs
    have hfrontlen : (qs.take c.max_size).length = c.max_size := by
      rw [List.length_take]; omega
    have hqs : qs.map cacheKey
        = (qs.take c.max_size).map cacheKey ++ [cacheKey qlast] := by
      conv_lhs => rw [← hfb]
      rw [List.map_append, hback, List.map_cons, List.map_nil]
    have hdisj : ∀ k ∈ (qs.take c.max_size).map cacheKey, k ≠ cacheKey qlast := by
      have hnd := hqs ▸ hqnodup
      intro k hk heq
      exact (List.nodup_append.mp hnd).2.2 hk (by simp [heq])
    have hstep1 : (putAll r t c.clear (qs.take c.max_size)).entries
        = (qs.take c.max_size).map (fun q' => (cacheKey q', ⟨r, t⟩)) := by
      have := putAll_fresh r t (qs.take c.max_size) c.clear
        (by simp [QueryCacheState.clear, hfrontlen])
        (by
          rw [List.map_take]
          exact List.Nodup.sublist (List.take_sublist _ _) hqnodup)
        (fun q' _ => rfl)
      simpa [QueryCacheState.clear] using this
    have hkeyfresh : hasKey (cacheKey qlast)
        (putAll r t c.clear (qs.take c.max_size)).entries = false := by
      rw [hstep1, hasKey_eq_false_iff]
      intro kv hkv heq
      rcases List.mem_map.mp hkv with ⟨q', hq', rfl⟩
      exact hdisj (cacheKey q') (List.mem_map_of_mem cacheKey hq') heq
    have hful : (putAll r t c.clear (qs.take c.max_size)).max_size
        ≤ (putAll r t c.clear (qs.take c.max_size)).entries.length := by
      rw [putAll_max_size, hstep1, List.length_map, hfrontlen]
      rfl
    have hstep2 := put_at_capacity_fresh (c := putAll r t c.clear (qs.take c.max_size))
      (q := qlast) r t hful hkeyfresh
    have hsplit : putAll r t c.clear qs
        = (putAll r t c.clear (qs.take c.max_size)).put qlast r t := by
      conv_lhs => rw [← hfb, hback]
      rw [putAll, List.foldl_append, List.foldl_cons, List.foldl_nil]
      rfl
    rw [hsplit, hstep2, hstep1, hqs, List.map_append,
      List.drop_append_of_le_length (by rw [List.length_map, hfrontlen]; omega)]
    simp [← List.map_drop, List.map_map, Function.comp]
    simp [Function.comp_def]

/-- Concrete two-entry cache at capacity (max_size = 2) for the C7 witness. -/
def lruCache : QueryCacheState :=
  ⟨2, 3600, [(cacheKey "a", ⟨sampleResult, 0⟩), (cacheKey "b", ⟨sampleResult, 0⟩)]⟩

/-- C7, witness: at capacity a fresh `put` evicts exactly the front entry, a
hit moves its entry to the back, and three distinct inserts into the empty
two-slot cache keep exactly the last two keys. -/
theorem cache_capacity_lru_spec_witness :
    (lruCache.put "c" sampleResult 7).entries.length ≤ lruCache.max_size
    ∧ (lruCache.put "c" sampleResult 7).entries
        = lruCache.entries.drop 1 ++ [(cacheKey "c", ⟨sampleResult, 7⟩)]
    ∧ (lruCache.get "a" 100).2.entries
        = removeKey (cacheKey "a") lruCache.entries ++ [(cacheKey "a", ⟨sampleResult, 0⟩)]
    ∧ ((putAll sampleResult 7 lruCache.clear ["a", "b", "c"]).entries.map Prod.fst)
        = (["a", "b", "c"].map cacheKey).drop 1 := by
  have T1 := cache_capacity_lru_spec lruCache "c" sampleResult 7 100 (by norm_num [lruCache])
  have T2 := cache_capacity_lru_spec lruCache "a" sampleResult 7 100 (by norm_num [lruCache])
  exact ⟨T1.1 (by norm_num [lruCache]),
    T1.2.1 (by norm_num [lruCache]) (by decide),
    T2.2.2.1 ⟨sampleResult, 0⟩ (by simp [lruCache, lookupEntry]) (by norm_num [lruCache]),
    T1.2.2.2 ["a", "b", "c"] (by norm_num [lruCache]) (by decide)⟩

/-- C10: when the cache holds exactly `max_size` entries and the query's key
is already present, `put` still pops the front (least-recently-used) entry
before assigning.  If the overwritten key differs from the front key, a
different entry is evicted and the cache is left with `max_size - 1` entries,
the new result stored under the existing key; if the overwritten key is
itself the front entry, it is evicted and re-appended, leaving `max_size`
entries. -/
theorem put_overwrite_at_capacity_spec (c : QueryCacheState) (q : String)
    (r : ChatResult) (t : ℚ) (k0 : String) (e0 : CacheEntry) (rest : Entries)
    (hc : c.entries = (k0, e0) :: rest)
    (hnodup : (c.entries.map Prod.fst).Nodup)
    (hlen : c.entries.length = c.max_size)
    (hkey : hasKey (cacheKey q) c.entries = true) :
    (cacheKey q ≠ k0 →
      (c.put q r t).entries.length = c.max_size - 1
      ∧ hasKey k0 (c.put q r t).entries = false
      ∧ lookupEntry (cacheKey q) (c.put q r t).entries = some ⟨r, t⟩)
    ∧ (cacheKey q = k0 →
      (c.put q r t).entries = rest ++ [(k0, ⟨r, t⟩)]
      ∧ (c.put q r t).entries.length = c.max_size) := by
  have hfull : c.max_size ≤ c.entries.length := le_of_eq hlen.symm
  have hput : (c.put q r t).entries = setKey (cacheKey q) ⟨r, t⟩ rest := by
    unfold QueryCacheState.put
    dsimp only
    rw [if_pos hfull, hc, List.drop_one, List.tail_cons]
  have hk0notin : ∀ kv ∈ rest, kv.1 ≠ k0 := by
    have h1 : (k0 :: rest.map Prod.fst).Nodup := by
      simpa only [hc, List.map_cons] using hnodup
    intro kv hkv heq
    exact (List.nodup_cons.mp h1).1 (heq ▸ List.mem_map_of_mem Prod.fst hkv)
  have hrestlen : rest.length + 1 = c.max_size := by
    simpa only [hc, List.length_cons] using hlen
  constructor
  · intro hne
    have hrest : hasKey (cacheKey q) rest = true := by
      rw [hc, hasKey_cons] at hkey
      simpa [Ne.symm hne] using hkey
    refine ⟨?_, ?_, ?_⟩
    · rw [hput, length_setKey_of_hasKey _ hrest]
      omega
    · rw [hput]
      unfold setKey
      rw [if_pos hrest, hasKey_eq_false_iff]
      intro kv' hkv'
      rcases List.mem_map.mp hkv' with ⟨kv, hkv, rfl⟩
      split_ifs with h
      · exact hne
      · exact hk0notin kv hkv
    · rw [hput]
      exact lookupEntry_setKey_self _ _ _
  · intro heq
    have hnotin : hasKey (cacheKey q) rest = false := by
      rw [hasKey_eq_false_iff]
      intro kv hkv
      rw [heq]
      exact hk0notin kv hkv
    constructor
    · rw [hput, setKey_of_not_hasKey _ hnotin, heq]
    · rw [hput, setKey_of_not_hasKey _ hnotin, List.length_append,
        List.length_singleton]
      omega

/-- C10, witness: max_size = 2, entries for keys "a" (front / LRU) and "b";
overwriting "b" at capacity evicts "a" and leaves one entry, while
overwriting "a" itself leaves two. -/
theorem put_overwrite_at_capacity_spec_witness :
    ((lruCache.put "b" sampleResult 9).entries.length = lruCache.max_size - 1
      ∧ hasKey (cacheKey "a") (lruCache.put "b" sampleResult 9).entries = false
      ∧ lookupEntry (cacheKey "b") (lruCache.put "b" sampleResult 9).entries
          = some ⟨sampleResult, 9⟩)
    ∧ ((lruCache.put "a" sampleResult 9).entries
        = [(cacheKey "b", ⟨sampleResult, 0⟩)] ++ [(cacheKey "a", ⟨sampleResult, 9⟩)]
      ∧ (lruCache.put "a" sampleResult 9).entries.length = lruCache.max_size) :=
  ⟨(put_overwrite_at_capacity_spec lruCache "b" sampleResult 9
      (cacheKey "a") ⟨sampleResult, 0⟩ [(cacheKey "b", ⟨sampleResult, 0⟩)]
      rfl (by decide) rfl (by decide)).1 (by decide),
   (put_overwrite_at_capacity_spec lruCache "a" sampleResult 9
      (cacheKey "a") ⟨sampleResult, 0⟩ [(cacheKey "b", ⟨sampleResult, 0⟩)]
      rfl (by decide) rfl (by decide)).2 (by decide)⟩

/-- C9: evaluating the two re-indexing triggers on a populated cache: the
sheets-update webhook with a valid secret schedules re-indexing yet returns
the query cache untouched — neither `handle_sheets_webhook` nor the
`reindex_company_qa` task it schedules ever calls `clear_cache` — while the
manual admin reindex endpoint does empty the cache. -/
theorem webhook_leaves_cache_spec :
    (handle_sheets_webhook "secret" "secret" lruCache).authorized = true
    ∧ (handle_sheets_webhook "secret" "secret" lruCache).reindexScheduled = true
    ∧ (handle_sheets_webhook "secret" "secret" lruCache).cache = lruCache
    ∧ (handle_sheets_webhook "secret" "secret" lruCache).cache.entries ≠ []
    ∧ (manual_reindex lruCache).cache.entries = [] := by
  refine ⟨rfl, rfl, rfl, ?_, rfl⟩
  simp [handle_sheets_webhook, lruCache]

theorem strHead_append (s t : String) (ch : Char) (h : s.data.head? = some ch) :
    (s ++ t).data.head? = some ch := by
  rw [String.data_append]
  cases hs : s.data with
  | nil => rw [hs] at h; simp at h
  | cons a as =>
    rw [hs] at h
    simp only [List.head?_cons, Option.some.injEq] at h
    simp [h]

theorem renderReference_head (i : ℕ) (m : ScoredMatch) :
    (renderReference i m).data.head? = some '【' := by
  unfold renderReference
  dsimp only
  split_ifs <;> (repeat' apply strHead_append) <;> rfl

theorem joinSep_head (sep : String) (b : String) (bs : List String) (ch : Char)
    (h : b.data.head? = some ch) :
    (joinSep sep (b :: bs)).data.head? = some ch := by
  cases bs with
  | nil => exact h
  | cons b2 rest => exact strHead_append _ _ _ (strHead_append _ _ _ h)

theorem buildBlocks_enumFrom (ms : List ScoredMatch) :
    ∀ i, buildBlocks i ms = (ms.enumFrom i).map fun p => renderReference p.1 p.2 := by
  induction ms with
  | nil => intro i; rfl
  | cons m rest ih =>
    intro i
    rw [buildBlocks, List.enumFrom, List.map_cons, ih (i + 1)]

/-- Modelled from the spec (§4.3 ContextBuilder): one reference shows, in
fixed order, its number, relevance score, original question, original
answer. -/
def referenceCore (i : ℕ) (m : ScoredMatch) : String :=
  "【參考資料 " ++ toString i ++ "】（相關度：" ++ floatRepr m.score ++ "）\n"
    ++ "問題：" ++ m.metadata.question.getD "" ++ "\n"
    ++ "答案：" ++ m.metadata.answer.getD ""

/-- C8: `build_context_block` returns the fixed no-reference sentinel exactly
for the empty match list; otherwise it joins one reference per match,
numbered 1..n in the order given; each reference shows score, question and
answer in fixed order, appending the link and the category only when they
are present (truthy) in the metadata. -/
theorem build_context_block_spec (ms : List ScoredMatch) :
    (build_context_block ms = sentinelNoReference ↔ ms = [])
    ∧ (ms ≠ [] → build_context_block ms
        = joinSep "\n\n" ((ms.enumFrom 1).map fun p => renderReference p.1 p.2))
    ∧ (∀ (i : ℕ) (m : ScoredMatch), optTruthy m.metadata.link = false →
        optTruthy m.metadata.category = false →
        renderReference i m = referenceCore i m)
    ∧ (∀ (i : ℕ) (m : ScoredMatch), optTruthy m.metadata.link = true →
        optTruthy m.metadata.category = true →
        renderReference i m = referenceCore i m ++ "\n連結：" ++ m.metadata.link.getD ""
            ++ "\n分類：" ++ m.metadata.category.getD "") := by
  refine ⟨⟨?_, ?_⟩, ?_, ?_, ?_⟩
  · intro heq
    cases ms with
    | nil => rfl
    | cons m rest =>
      exfalso
      have hh : (build_context_block (m :: rest)).data.head? = some '【' := by
        unfold build_context_block
        rw [if_neg (by simp)]
        rw [buildBlocks]
        exact joinSep_head _ _ _ _ (renderReference_head 1 m)
      rw [heq] at hh
      simp only [sentinelNoReference] at hh
      exact absurd hh (by decide)
  · intro heq
    rw [heq]
    rfl
  · intro hne
    unfold build_context_block
    rw [if_neg (by simpa using hne), buildBlocks_enumFrom ms 1]
  · intro i m hlink hcat
    unfold renderReference referenceCore
    dsimp only
    rw [hlink, hcat]
    rfl
  · intro i m hlink hcat
    unfold renderReference referenceCore
    dsimp only
    rw [hlink, hcat]
    rfl

/-- Concrete metadata with link and category present. -/
def linkMeta : QAMetadata :=
  ⟨some "Q", some "A", some "https://x.example", some "cat", some 3⟩

/-- C8, witness at a singleton match list and at metadata with and without
optional fields. -/
theorem build_context_block_spec_witness :
    build_context_block [⟨(9:ℚ)/10, linkMeta⟩]
      = joinSep "\n\n" (([(⟨(9:ℚ)/10, linkMeta⟩ : ScoredMatch)].enumFrom 1).map
          fun p => renderReference p.1 p.2)
    ∧ renderReference 1 ⟨(9:ℚ)/10, emptyMeta⟩ = referenceCore 1 ⟨(9:ℚ)/10, emptyMeta⟩
    ∧ renderReference 1 ⟨(9:ℚ)/10, linkMeta⟩
        = referenceCore 1 ⟨(9:ℚ)/10, linkMeta⟩ ++ "\n連結：" ++ "https://x.example"
            ++ "\n分類：" ++ "cat"
    ∧ (build_context_block [] = sentinelNoReference) :=
  ⟨(build_context_block_spec [⟨(9:ℚ)/10, linkMeta⟩]).2.1 (by simp),
   (build_context_block_spec [⟨(9:ℚ)/10, emptyMeta⟩]).2.2.1 1 ⟨(9:ℚ)/10, emptyMeta⟩ rfl rfl,
   (build_context_block_spec [⟨(9:ℚ)/10, linkMeta⟩]).2.2.2 1 ⟨(9:ℚ)/10, linkMeta⟩ rfl rfl,
   (build_context_block_spec []).1.mpr rfl⟩

theorem streamLoop_spec (deltas : List (Option String)) :
    ∀ acc : String, ∃ texts : List String,
      (streamLoop deltas acc).1 = texts.map (fun t => sseLine (Event.chunk t))
      ∧ (streamLoop deltas acc).2 = acc ++ concatAll texts := by
  induction deltas with
  | nil => intro acc; exact ⟨[], rfl, by simp [streamLoop, concatAll]⟩
  | cons d rest ih =>
    intro acc
    match d with
    | none => exact ih acc
    | some text =>
      by_cases he : text.isEmpty
      · have hskip : streamLoop (some text :: rest) acc = streamLoop rest acc := by
          simp [streamLoop, he]
        rw [hskip]
        exact ih acc
      · obtain ⟨texts, h1, h2⟩ := ih (acc ++ text)
        refine ⟨text :: texts, ?_, ?_⟩
        · simp [streamLoop, he, h1]
        · simp only [streamLoop, he, if_false, Bool.false_eq_true]
          rw [h2, concatAll, String.append_assoc]

/-- C5: every stream emits exactly one `metadata` event, then one `chunk`
event per accumulated text fragment, then exactly one `done` event whose
answer is the concatenation of all chunk contents; every emitted line is
`data: ` followed by one JSON object and a blank-line terminator. -/
theorem chat_stream_wire_spec (query : String) (history : List Turn)
    (c : QueryCacheState) (env : StreamEnv) :
    ∃ (sources : List SourceRef) (confidence : ℚ) (texts : List String) (latency : ℚ),
      (chat_stream query history c env).1
        = sseLine (Event.metadata sources confidence)
            :: (texts.map (fun t => sseLine (Event.chunk t))
              ++ [sseLine (Event.done (concatAll texts) latency)])
      ∧ (∀ l ∈ (chat_stream query history c env).1,
          ∃ e : Event, l = "data: " ++ encodeEvent e ++ "\n\n") := by
  obtain ⟨texts, h1, h2⟩ := streamLoop_spec env.deltas ""
  have hlist : (chat_stream query history c env).1
      = sseLine (Event.metadata (_build_sources (retrieve_context env.indexResponse))
            (_calc_confidence (retrieve_context env.indexResponse)))
          :: (texts.map (fun t => sseLine (Event.chunk t))
            ++ [sseLine (Event.done (concatAll texts) (pyRound (env.t1 - env.t0) 3))]) := by
    unfold chat_stream
    dsimp only
    rw [h1, h2, String.empty_append, List.cons_append]
  refine ⟨_, _, texts, _, hlist, ?_⟩
  intro l hl
  rw [hlist] at hl
  rcases List.mem_cons.mp hl with rfl | hl
  · exact ⟨Event.metadata _ _, rfl⟩
  · rcases List.mem_append.mp hl with hl | hl
    · rcases List.mem_map.mp hl with ⟨t, _, rfl⟩
      exact ⟨Event.chunk t, rfl⟩
    · rw [List.mem_singleton.mp hl]
      exact ⟨Event.done (concatAll texts) (pyRound (env.t1 - env.t0) 3), rfl⟩

/-- Concrete cache holding an unexpired entry for the normalized query
"hi". -/
def hitCache : QueryCacheState :=
  ⟨200, 3600, [(cacheKey "hi", ⟨sampleResult, 0⟩)]⟩

/-- Concrete streaming environment: empty index response, one text delta. -/
def streamEnv0 : StreamEnv := ⟨[], [some "x"], 100, 101, 101⟩

/-- C1, counterexample: a query with no history whose key has an unexpired
cache entry (the blocking-mode hit premise holds, first conjunct), yet
`chat_stream` still performs the embedding, index-query and streaming
completion calls — it never consults the cache, so the claimed direct
transition to DONE without retrieval or generation is false. -/
theorem chat_stream_hit_still_retrieves :
    (hitCache.get "hi" 100).1 = some sampleResult
    ∧ ExtCall.embed "hi" ∈ (chat_stream "hi" [] hitCache streamEnv0).2.2
    ∧ ExtCall.indexQuery ∈ (chat_stream "hi" [] hitCache streamEnv0).2.2
    ∧ ExtCall.completionStream ∈ (chat_stream "hi" [] hitCache streamEnv0).2.2 := by
  refine ⟨?_, ?_, ?_, ?_⟩
  · unfold QueryCacheState.get
    dsimp only
    rw [show lookupEntry (cacheKey "hi") hitCache.entries = some ⟨sampleResult, 0⟩ by
      simp [hitCache, lookupEntry]]
    dsimp only
    rw [if_pos (show (100 : ℚ) - (0 : ℚ) < hitCache.ttl by norm_num [hitCache])]
  · simp [chat_stream]
  · simp [chat_stream]
  · simp [chat_stream]

/-- C1, amended: in streaming mode the cache is never consulted — the
emitted event lines and the external-call trace are identical for any two
cache states, and every stream performs the embedding, index-query and
streaming completion calls even when an unexpired cache entry exists for the
query; the cache-hit short-circuit exists only in blocking `chat`. -/
theorem chat_stream_cache_independent (query : String) (history : List Turn)
    (c c' : QueryCacheState) (env : StreamEnv) :
    (chat_stream query history c env).1 = (chat_stream query history c' env).1
    ∧ (chat_stream query history c env).2.2
        = [ExtCall.embed query, ExtCall.indexQuery, ExtCall.completionStream]
    ∧ (chat_stream query history c' env).2.2
        = (chat_stream query history c env).2.2 :=
  ⟨rfl, rfl, rfl⟩

theorem chat_hit_aliasing (q : String) (c : QueryCacheState) (env : ChatEnv)
    (entry : CacheEntry)
    (hfound : lookupEntry (cacheKey q) c.entries = some entry)
    (hfresh : env.t1 - entry.timestamp < c.ttl) :
    (chat q [] c env).1 = hitUpdate entry.result (pyRound (env.t2 - env.t0) 3)
    ∧ lookupEntry (cacheKey q) (chat q [] c env).2.1.entries
        = some ⟨hitUpdate entry.result (pyRound (env.t2 - env.t0) 3), entry.timestamp⟩
    ∧ (chat q [] c env).2.2 = [] := by
  have hget : c.get q env.t1 = (some entry.result,
      { c with entries := removeKey (cacheKey q) c.entries ++ [(cacheKey q, entry)] }) := by
    unfold QueryCacheState.get
    dsimp only
    rw [hfound]
    dsimp only
    rw [if_pos hfresh]
  unfold chat
  rw [hget]
  dsimp only
  rw [if_pos (show ([] : List Turn).isEmpty = true from rfl)]
  refine ⟨rfl, ?_, rfl⟩
  have hmut : mutateResult (cacheKey q)
      (hitUpdate entry.result (pyRound (env.t2 - env.t0) 3))
      (removeKey (cacheKey q) c.entries ++ [(cacheKey q, entry)])
      = removeKey (cacheKey q) c.entries
        ++ [(cacheKey q, ⟨hitUpdate entry.result (pyRound (env.t2 - env.t0) 3),
              entry.timestamp⟩)] := by
    unfold mutateResult
    rw [List.map_append]
    congr 1
    · exact mutateResult_of_forall_ne _ (forall_mem_removeKey_ne _ _)
    · simp
  rw [hmut, lookupEntry_append_of_none _ (lookupEntry_removeKey_self _ _),
    lookupEntry_cons, if_pos rfl]

/-- C2, amended: serving a cache hit in blocking `chat` hands the caller the
very dict stored in the cache: the code sets `latency_seconds` and
`cached = True` on it in place, so the stored entry's result is updated to
exactly the value returned (a later `get` sees the mutated result, and any
caller mutation aliases the cache entry); no external call is made. -/
theorem chat_cache_hit_live_reference (q : String) (c : QueryCacheState)
    (env : ChatEnv) (entry : CacheEntry)
    (hfound : lookupEntry (cacheKey q) c.entries = some entry)
    (hfresh : env.t1 - entry.timestamp < c.ttl) :
    (chat q [] c env).1 = hitUpdate entry.result (pyRound (env.t2 - env.t0) 3)
    ∧ lookupEntry (cacheKey q) (chat q [] c env).2.1.entries
        = some ⟨hitUpdate entry.result (pyRound (env.t2 - env.t0) 3), entry.timestamp⟩
    ∧ (chat q [] c env).2.2 = [] :=
  chat_hit_aliasing q c env entry hfound hfresh

/-- Concrete cache and environment for the C2 concrete instances. -/
def staleCache : QueryCacheState :=
  ⟨200, 3600, [(cacheKey "q", ⟨sampleResult, 0⟩)]⟩

/-- Concrete blocking-chat environment (hit path: generation never used). -/
def chatEnv0 : ChatEnv := ⟨[], "fresh answer", 10, 10, 10, 11⟩

/-- C2, witness for the amended theorem at a concrete one-entry cache. -/
theorem chat_cache_hit_live_reference_witness :
    (chat "q" [] staleCache chatEnv0).1
      = hitUpdate sampleResult (pyRound (chatEnv0.t2 - chatEnv0.t0) 3)
    ∧ lookupEntry (cacheKey "q") (chat "q" [] staleCache chatEnv0).2.1.entries
      = some ⟨hitUpdate sampleResult (pyRound (chatEnv0.t2 - chatEnv0.t0) 3), 0⟩
    ∧ (chat "q" [] staleCache chatEnv0).2.2 = [] :=
  chat_cache_hit_live_reference "q" staleCache chatEnv0 ⟨sampleResult, 0⟩
    (by simp [staleCache, lookupEntry]) (by norm_num [staleCache, chatEnv0])

/-- C2, counterexample: serving the hit does NOT leave the stored cache
entry's result unchanged — after the hit, the entry stored under the key
carries `cached = true` (and a rewritten latency), a different value from
the `sampleResult` that was stored. -/
theorem chat_hit_corrupts_stored_entry :
    lookupEntry (cacheKey "q") (chat "q" [] staleCache chatEnv0).2.1.entries
      = some ⟨hitUpdate sampleResult 0, 0⟩
    ∧ hitUpdate sampleResult 0 ≠ sampleResult := by
  have hlat : pyRound (chatEnv0.t2 - chatEnv0.t0) 3 = 0 := by
    rw [show chatEnv0.t2 - chatEnv0.t0 = (0 : ℚ) by norm_num [chatEnv0]]
    exact pyRound_eq_self 0 (by norm_num)
  have h := (chat_hit_aliasing "q" staleCache chatEnv0 ⟨sampleResult, 0⟩
    (by simp [staleCache, lookupEntry]) (by norm_num [staleCache, chatEnv0])).2.1
  rw [hlat] at h
  exact ⟨h, by simp [hitUpdate, sampleResult]⟩
